import Mathlib

/-!
Verification development for `pdf_to_speech.py`, a linear PDF-to-audiobook
pipeline: extract text (pdfminer + regex normalization), slice it into
fixed-size chunks, synthesize each chunk via one of two TTS providers,
concatenate the audio bytes and write them to the output path.

Shallow embedding conventions:
* Python strings are `List Char`; audio byte strings are `List Nat`.
* The external collaborators (pdfminer, Google Cloud TTS, gTTS, pydub,
  the filesystem) are oracles passed in as function arguments; fallible
  calls return `Except PyError`.
* Effects are made explicit: `text_to_mp3` returns, next to its
  `Except` result, the list of chunks for which a synthesis call was
  issued (in call order); `synthesize_gtts` returns, next to its result,
  whether the temporary file it created still exists on exit.
* Only the ASCII fragment of Python's `\s` / `\w` classes is modelled.
-/

namespace PdfToSpeech

/-- ASCII fragment of Python's regex class `\s` (and of `str.strip`'s
default whitespace set): space, tab, newline, carriage return,
vertical tab, form feed. -/
def pyWs (c : Char) : Bool :=
  c == ' ' || c == '\t' || c == '\n' || c == '\r' || c == '\x0b' || c == '\x0c'

/-- ASCII fragment of Python's regex class `\w`: letters, digits, underscore. -/
def isWordChar (c : Char) : Bool :=
  c.isAlphanum || c == '_'

/-- Whether a character list contains a newline. -/
def hasNl : List Char → Bool
  | [] => false
  | c :: rest => c == '\n' || hasNl rest

/-- Fuel-indexed scanner for the hyphen-rejoin substitution; see
`joinHyphenBreaks`.  With fewer than three characters left no match can
start, so those characters are emitted unchanged. -/
def joinHyphenGo : Nat → List Char → List Char
  | _, [] => []
  | 0, s => s
  | _ + 1, [a] => [a]
  | _ + 1, [a, b] => [a, b]
  | fuel + 1, a :: b :: c :: rest =>
      if a = '-' ∧ b = '\n' ∧ isWordChar c then c :: joinHyphenGo fuel rest
      else a :: joinHyphenGo fuel (b :: c :: rest)

/-- Embedding of `re.sub(r"-\n(\w)", r"\1", raw)` (line 27 of the source):
scan left to right; an occurrence of hyphen, newline, word-character is
replaced by the word character alone, and scanning resumes after the
match; otherwise the scanner advances one character.  `joinHyphenGo`
is the scanner with explicit fuel bounding the number of scan steps;
each step consumes at least one character, so `l.length` is always
enough fuel and the zero-fuel fallback is never reached. -/
def joinHyphenBreaks (l : List Char) : List Char :=
  joinHyphenGo l.length l

/-- Embedding of `re.sub(r"\s+\n", "\n", cleaned)` (line 28 of the source).
With a greedy `\s+` and left-to-right non-overlapping matching, a
whitespace character is consumed by a match (and not reproduced by the
replacement `"\n"`) exactly when its contiguous whitespace continuation
still contains a newline: the match covering it ends at the last newline
of its whitespace run, whose final `"\n"` is what the replacement emits.
So character `c` is dropped iff `c` is whitespace and a newline occurs in
the whitespace run directly following it; every other character is kept. -/
def trimWsBeforeNewline : List Char → List Char
  | [] => []
  | c :: rest =>
      if pyWs c && hasNl (rest.takeWhile pyWs) then trimWsBeforeNewline rest
      else c :: trimWsBeforeNewline rest

/-- Worker for `re.sub(r"\n{2,}", "\n\n", cleaned)` (line 29 of the source):
`k` counts the consecutive newlines just seen (the first two of a newline
run are emitted, the rest of the run is dropped). -/
def collapseGo : Nat → List Char → List Char
  | _, [] => []
  | k, c :: rest =>
      if c = '\n' then
        if 2 ≤ k then collapseGo k rest
        else '\n' :: collapseGo (k + 1) rest
      else c :: collapseGo 0 rest

/-- Embedding of `re.sub(r"\n{2,}", "\n\n", cleaned)`: every maximal run of
two or more newlines is replaced by exactly two newlines. -/
def collapseBlankLines (l : List Char) : List Char :=
  collapseGo 0 l

/-- Drop trailing whitespace (the right half of Python's `str.strip()`). -/
def rstripWs : List Char → List Char
  | [] => []
  | c :: rest =>
      match rstripWs rest with
      | [] => if pyWs c then [] else [c]
      | r => c :: r

/-- Embedding of Python's `str.strip()`: drop leading and trailing
whitespace. -/
def pyStrip (l : List Char) : List Char :=
  rstripWs (l.dropWhile pyWs)

/-- Embedding of `extract_text` (lines 22-30 of the source), with the
pdfminer collaborator's raw output as the oracle argument `raw`:
the three normalization substitutions in source order, then `strip()`. -/
def extract_text (raw : List Char) : List Char :=
  pyStrip (collapseBlankLines (trimWsBeforeNewline (joinHyphenBreaks raw)))

/-- `MAX_CHARS = 4_900` (line 33 of the source). -/
def MAX_CHARS : Nat := 4900

/-- Fuel-indexed worker for the chunking comprehension. Each step emits the
slice `s[0:m]` (as `c :: rest.take (m-1)`) and recurses on `s[m:]`
(as `rest.drop (m-1)`); the fuel only bounds the recursion depth and
`chunkText` supplies `s.length`, which is enough fuel since every step
consumes at least one character. The `0, s` fallback is never reached
from `chunkText`. -/
def chunkGo (m : Nat) : Nat → List Char → List (List Char)
  | _, [] => []
  | 0, s => [s]
  | fuel + 1, c :: rest => (c :: rest.take (m - 1)) :: chunkGo m fuel (rest.drop (m - 1))

/-- Embedding of the chunking comprehension
`[full_text[i:i+MAX_CHARS] for i in range(0, len(full_text), MAX_CHARS)]`
(line 75 of the source), generalized over the slice width `m`: repeatedly
take the first `m` characters and continue with the remainder; the empty
string yields no chunks. -/
def chunkText (m : Nat) (s : List Char) : List (List Char) :=
  chunkGo m s.length s

/-- Exceptions the script can raise.  `configurationError` is not produced
anywhere by the code: the constructor exists only so the specification's
error taxonomy (its `ConfigurationError` class) can be stated and compared
against what the code actually raises. -/
inductive PyError where
  | valueError (msg : String)
  | indexError
  | synthError (msg : String)
  | configurationError
  deriving DecidableEq, Repr

/-- Embedding of Python's `voice.split("-")` for the one-character
separator `"-"`: split at every hyphen, keeping empty pieces, so the
result is always non-empty (the empty string splits to `[[]]`). -/
def splitDashGo (acc : List Char) : List Char → List (List Char)
  | [] => [acc.reverse]
  | c :: rest =>
      if c = '-' then acc.reverse :: splitDashGo [] rest
      else splitDashGo (c :: acc) rest

/-- Python's `voice.split("-")`. -/
def splitDash (v : List Char) : List (List Char) :=
  splitDashGo [] v

/-- Embedding of `synthesize_google` (lines 35-52 of the source).  The
Google Cloud client is the oracle `api`, taking the text, the computed
`language_code`, and the voice name, and returning MP3 bytes or a
provider failure (the speaking rate is only forwarded to the provider and
is folded into the oracle).  The source computes
`voice.split("-")[0] + "-" + voice.split("-")[1]`; when the split has
fewer than two parts, the subscript `[1]` raises an `IndexError`. -/
def synthesize_google
    (api : List Char → List Char → List Char → Except PyError (List Nat))
    (text voice : List Char) : Except PyError (List Nat) :=
  match splitDash voice with
  | p0 :: p1 :: _ => api text (p0 ++ ['-'] ++ p1) voice
  | _ => Except.error PyError.indexError

/-- Embedding of `synthesize_gtts` (lines 54-70 of the source).  Oracles:
`tts` is the gTTS call writing MP3 bytes into the temporary file,
`decode` is `AudioSegment.from_mp3` on those bytes, `encode` is the
rate adjustment plus `export` back to MP3 bytes.  The second component of
the result records whether the temporary file (created with
`delete=False`) still exists when the function exits: the source unlinks
it only on the line after `from_mp3`, so a failure of `tts` or of
`decode` leaves the file behind, while on success it is removed before
the rate adjustment and export run. -/
def synthesize_gtts
    (tts : Except PyError (List Nat))
    (decode : List Nat → Except PyError (List Nat))
    (encode : List Nat → List Nat) : Except PyError (List Nat) × Bool :=
  match tts with
  | Except.error e => (Except.error e, true)
  | Except.ok raw =>
      match decode raw with
      | Except.error e => (Except.error e, true)
      | Except.ok audio => (Except.ok (encode audio), false)

/-- Embedding of the per-chunk loop of `text_to_mp3` (lines 77-87 of the
source).  `sg` and `st` are the two provider calls with voice and rate
already applied (`sg chunk` models `synthesize_google(chunk, voice, rate)`,
`st chunk` models `synthesize_gtts(chunk, lang=voice.split("-")[0],
speaking_rate=rate)`).  The dispatch on `provider` happens inside the
loop body, once per chunk, exactly as in the source's `if/elif/else`.
The result pairs the loop outcome (`ok` with the accumulated
`audio_bytes`, or the first uncaught exception) with the list of chunks
for which a synthesis call was issued, in call order. -/
def synthLoop (sg st : List Char → Except PyError (List Nat)) (provider : String) :
    List (List Char) → Except PyError (List Nat) × List (List Char)
  | [] => (Except.ok [], [])
  | c :: rest =>
      if provider = "google" then
        match sg c with
        | Except.error e => (Except.error e, [c])
        | Except.ok frag =>
            match synthLoop sg st provider rest with
            | (Except.error e, tr) => (Except.error e, c :: tr)
            | (Except.ok tail, tr) => (Except.ok (frag ++ tail), c :: tr)
      else if provider = "gtts" then
        match st c with
        | Except.error e => (Except.error e, [c])
        | Except.ok frag =>
            match synthLoop sg st provider rest with
            | (Except.error e, tr) => (Except.error e, c :: tr)
            | (Except.ok tail, tr) => (Except.ok (frag ++ tail), c :: tr)
      else (Except.error (PyError.valueError "Unsupported provider"), [])

/-- Embedding of `text_to_mp3` (lines 72-90 of the source): chunk the text
at `MAX_CHARS`, run the per-chunk synthesis loop, and — only if the loop
finishes without an exception — write the accumulated bytes to
`out_path` (line 89).  An `ok b` result therefore means `b` was written
to the output path; an `error` result means the write never executed. -/
def text_to_mp3 (sg st : List Char → Except PyError (List Nat))
    (full_text : List Char) (provider : String) :
    Except PyError (List Nat) × List (List Char) :=
  synthLoop sg st provider (chunkText MAX_CHARS full_text)

/-- Observable outcome of a run of `main`: `exited msg` is
`sys.exit(msg)` (message printed, process status 1), `wrote b` means the
pipeline completed and wrote bytes `b` to the output path, `raised e`
means an exception escaped (process status 1, traceback shown, nothing
written). -/
inductive RunOutcome where
  | exited (msg : String)
  | wrote (bytes : List Nat)
  | raised (e : PyError)
  deriving DecidableEq, Repr

/-- Embedding of `main` (lines 107-114 of the source): check that the
input PDF exists, extract and normalize its text (`raw` is the pdfminer
oracle output), exit if the result is empty, otherwise run
`text_to_mp3`.  The second component is the synthesis call trace
inherited from `text_to_mp3` (empty when `text_to_mp3` is never
reached). -/
def main (pdfExists : Bool) (raw : List Char)
    (sg st : List Char → Except PyError (List Nat)) (provider : String) :
    RunOutcome × List (List Char) :=
  if pdfExists = false then (RunOutcome.exited "PDF not found", [])
  else
    let text := extract_text raw
    if text = [] then (RunOutcome.exited "No extractable text found in the PDF.", [])
    else
      match text_to_mp3 sg st text provider with
      | (Except.ok b, tr) => (RunOutcome.wrote b, tr)
      | (Except.error e, tr) => (RunOutcome.raised e, tr)

/-! ### Chunker lemmas -/

lemma chunkGo_nil (m fuel : Nat) : chunkGo m fuel [] = [] := by
  cases fuel <;> rfl

lemma chunkGo_join (m : Nat) :
    ∀ fuel (s : List Char), s.length ≤ fuel → (chunkGo m fuel s).flatten = s := by
  intro fuel
  induction fuel with
  | zero =>
      intro s hs
      have : s = [] := List.length_eq_zero.mp (Nat.le_zero.mp hs)
      subst this
      simp [chunkGo_nil]
  | succ fuel ih =>
      intro s hs
      cases s with
      | nil => simp [chunkGo_nil]
      | cons c rest =>
          have hlen : (rest.drop (m - 1)).length ≤ fuel := by
            have h1 : (rest.drop (m - 1)).length = rest.length - (m - 1) :=
              List.length_drop _ _
            have h2 : rest.length + 1 ≤ fuel + 1 := by simpa using hs
            omega
          show ((c :: rest.take (m - 1)) :: chunkGo m fuel (rest.drop (m - 1))).flatten
              = c :: rest
          rw [List.flatten_cons, ih _ hlen]
          simp [List.take_append_drop]

lemma chunkGo_mem_len (m : Nat) (hm : 0 < m) :
    ∀ fuel (s : List Char), s.length ≤ fuel →
      ∀ ch ∈ chunkGo m fuel s, 1 ≤ ch.length ∧ ch.length ≤ m := by
  intro fuel
  induction fuel with
  | zero =>
      intro s hs
      have : s = [] := List.length_eq_zero.mp (Nat.le_zero.mp hs)
      subst this
      simp [chunkGo_nil]
  | succ fuel ih =>
      intro s hs
      cases s with
      | nil => simp [chunkGo_nil]
      | cons c rest =>
          have hlen : (rest.drop (m - 1)).length ≤ fuel := by
            have h1 : (rest.drop (m - 1)).length = rest.length - (m - 1) :=
              List.length_drop _ _
            have h2 : rest.length + 1 ≤ fuel + 1 := by simpa using hs
            omega
          intro ch hch
          rcases List.mem_cons.mp hch with h | h
          · subst h
            constructor
            · simp
            · simp only [List.length_cons, List.length_take]
              omega
          · exact ih _ hlen ch h

lemma chunkGo_length (m : Nat) (hm : 0 < m) :
    ∀ fuel (s : List Char), s.length ≤ fuel →
      (chunkGo m fuel s).length = (s.length + m - 1) / m := by
  intro fuel
  induction fuel with
  | zero =>
      intro s hs
      have : s = [] := List.length_eq_zero.mp (Nat.le_zero.mp hs)
      subst this
      simp [chunkGo_nil, Nat.div_eq_of_lt (by omega : m - 1 < m)]
  | succ fuel ih =>
      intro s hs
      cases s with
      | nil =>
          simp [chunkGo_nil, Nat.div_eq_of_lt (by omega : m - 1 < m)]
      | cons c rest =>
          have hdrop : (rest.drop (m - 1)).length = rest.length - (m - 1) :=
            List.length_drop _ _
          have hlen : (rest.drop (m - 1)).length ≤ fuel := by
            have h2 : rest.length + 1 ≤ fuel + 1 := by simpa using hs
            omega
          show ((c :: rest.take (m - 1)) :: chunkGo m fuel (rest.drop (m - 1))).length
              = ((c :: rest).length + m - 1) / m
          rw [List.length_cons, ih _ hlen, hdrop, List.length_cons]
          have hnum : rest.length + 1 + m - 1 = rest.length + m := by omega
          rw [hnum, Nat.add_div_right _ hm]
          rcases Nat.lt_or_ge rest.length m with hR | hR
          · have h0 : rest.length - (m - 1) = 0 := by omega
            have hRdiv : rest.length / m = 0 := Nat.div_eq_of_lt hR
            rw [h0, hRdiv]
            simp [Nat.div_eq_of_lt (by omega : m - 1 < m)]
          · have hEq : rest.length - (m - 1) + m - 1 = rest.length := by omega
            rw [hEq]

lemma chunkGo_eq_nil_iff (m fuel : Nat) (s : List Char) (hf : s.length ≤ fuel) :
    chunkGo m fuel s = [] ↔ s = [] := by
  cases s with
  | nil => simp [chunkGo_nil]
  | cons c rest =>
      cases fuel with
      | zero => simp at hf
      | succ fuel => simp [chunkGo]

lemma chunkGo_dropLast (m : Nat) (hm : 0 < m) :
    ∀ fuel (s : List Char), s.length ≤ fuel →
      ∀ ch ∈ (chunkGo m fuel s).dropLast, ch.length = m := by
  intro fuel
  induction fuel with
  | zero =>
      intro s hs
      have : s = [] := List.length_eq_zero.mp (Nat.le_zero.mp hs)
      subst this
      simp [chunkGo_nil]
  | succ fuel ih =>
      intro s hs
      cases s with
      | nil => simp [chunkGo_nil]
      | cons c rest =>
          have hdrop : (rest.drop (m - 1)).length = rest.length - (m - 1) :=
            List.length_drop _ _
          have hlen : (rest.drop (m - 1)).length ≤ fuel := by
            have h2 : rest.length + 1 ≤ fuel + 1 := by simpa using hs
            omega
          show ∀ ch ∈ ((c :: rest.take (m - 1)) ::
              chunkGo m fuel (rest.drop (m - 1))).dropLast, ch.length = m
          cases hT : chunkGo m fuel (rest.drop (m - 1)) with
          | nil => simp
          | cons t ts =>
              have hd : rest.drop (m - 1) ≠ [] := by
                intro h
                rw [h, chunkGo_nil] at hT
                exact List.noConfusion hT
              have hR : m - 1 < rest.length := by
                by_contra h
                exact hd (List.drop_eq_nil_of_le (by omega))
              intro ch hch
              rw [List.dropLast_cons_of_ne_nil (List.cons_ne_nil t ts)] at hch
              rcases List.mem_cons.mp hch with h | h
              · subst h
                have : (rest.take (m - 1)).length = min (m - 1) rest.length :=
                  List.length_take _ _
                simp
                omega
              · have := ih _ hlen ch
                rw [hT] at this
                exact this h

lemma chunkText_join (m : Nat) (s : List Char) :
    (chunkText m s).flatten = s :=
  chunkGo_join m s.length s le_rfl

lemma chunkText_mem_len (m : Nat) (hm : 0 < m) (s : List Char) :
    ∀ ch ∈ chunkText m s, 1 ≤ ch.length ∧ ch.length ≤ m :=
  chunkGo_mem_len m hm s.length s le_rfl

/-! ### Claim theorems: chunker -/

/-- C1: Chunker round-trip. For every string `s` and positive slice width
`m` (the source fixes `m = MAX_CHARS = 4900`), the chunks produced by the
slicing comprehension concatenate back to `s` exactly — so they are
contiguous, non-overlapping and in original order — and every chunk has
length at most `m`. -/
theorem chunk_roundtrip (m : Nat) (hm : 0 < m) (s : List Char) :
    (chunkText m s).flatten = s ∧ ∀ ch ∈ chunkText m s, ch.length ≤ m :=
  ⟨chunkText_join m s, fun ch hch => (chunkText_mem_len m hm s ch hch).2⟩

/-- Witness for `chunk_roundtrip` at width 2 and the concrete string
`"pdf"` (which chunks as `["pd", "f"]`). -/
theorem chunk_roundtrip_witness :
    (0 < 2 ∧ (chunkText 2 ['p', 'd', 'f']).flatten = ['p', 'd', 'f']) ∧
      ∀ ch ∈ chunkText 2 ['p', 'd', 'f'], ch.length ≤ 2 :=
  ⟨⟨by decide, (chunk_roundtrip 2 (by decide) ['p', 'd', 'f']).1⟩,
    (chunk_roundtrip 2 (by decide) ['p', 'd', 'f']).2⟩

/-- C3 counterexample: the empty string has length at most
`MAX_CHARS`, yet chunking it yields zero chunks, not the single chunk
`[""]` the claim requires. -/
theorem chunk_single_cex :
    ([] : List Char).length ≤ MAX_CHARS ∧
      chunkText MAX_CHARS ([] : List Char) = [] ∧
      chunkText MAX_CHARS ([] : List Char) ≠ [([] : List Char)] := by
  decide

/-- C3 (amended): for every non-empty string `s` with `s.length ≤ m`,
chunking yields exactly one chunk, and that chunk equals `s`.  (The
original claim fails only for the empty string, which yields zero
chunks.) -/
theorem chunk_single_of_short (m : Nat) (s : List Char)
    (hne : s ≠ []) (hlen : s.length ≤ m) : chunkText m s = [s] := by
  cases s with
  | nil => exact absurd rfl hne
  | cons c rest =>
      have hlen2 : rest.length + 1 ≤ m := by simpa using hlen
      show ((c :: rest.take (m - 1)) ::
          chunkGo m rest.length (rest.drop (m - 1))) = [c :: rest]
      have hdrop : rest.drop (m - 1) = [] :=
        List.drop_eq_nil_of_le (by omega)
      have htake : rest.take (m - 1) = rest :=
        List.take_of_length_le (by omega)
      rw [hdrop, htake, chunkGo_nil]

/-- Witness for `chunk_single_of_short` at the concrete string `"hi"`. -/
theorem chunk_single_of_short_witness :
    chunkText MAX_CHARS ['h', 'i'] = [['h', 'i']] :=
  chunk_single_of_short MAX_CHARS ['h', 'i'] (by decide) (by decide)

/-- C9: Chunk-size shape.  Chunking at `MAX_CHARS = 4900` yields exactly
`⌈s.length / 4900⌉` chunks (computed as `(s.length + 4899) / 4900`);
every chunk except possibly the last has length exactly 4900; every
chunk — in particular the last — has length between 1 and 4900; and the
empty string yields zero chunks. -/
theorem chunk_shape (s : List Char) :
    (chunkText MAX_CHARS s).length = (s.length + MAX_CHARS - 1) / MAX_CHARS ∧
      (∀ ch ∈ (chunkText MAX_CHARS s).dropLast, ch.length = MAX_CHARS) ∧
      (∀ ch ∈ chunkText MAX_CHARS s, 1 ≤ ch.length ∧ ch.length ≤ MAX_CHARS) ∧
      chunkText MAX_CHARS ([] : List Char) = [] := by
  have hm : 0 < MAX_CHARS := by decide
  refine ⟨chunkGo_length MAX_CHARS hm s.length s le_rfl,
    chunkGo_dropLast MAX_CHARS hm s.length s le_rfl,
    chunkText_mem_len MAX_CHARS hm s, ?_⟩
  rfl

/-- Witness for `chunk_shape`: the one-character string yields exactly
one chunk. -/
theorem chunk_shape_witness : (chunkText MAX_CHARS ['a']).length = 1 := by
  have h := (chunk_shape ['a']).1
  simpa using h

/-! ### Synthesis-loop lemmas -/

lemma synthLoop_ok_google (sg st : List Char → Except PyError (List Nat))
    (f : List Char → List Nat) :
    ∀ cs : List (List Char), (∀ c ∈ cs, sg c = Except.ok (f c)) →
      synthLoop sg st "google" cs = (Except.ok ((cs.map f).flatten), cs) := by
  intro cs
  induction cs with
  | nil => intro _; rfl
  | cons c rest ih =>
      intro h
      have hc : sg c = Except.ok (f c) := h c (List.mem_cons_self c rest)
      have hr := ih fun d hd => h d (List.mem_cons_of_mem c hd)
      simp [synthLoop, hc, hr]

lemma synthLoop_ok_gtts (sg st : List Char → Except PyError (List Nat))
    (f : List Char → List Nat) :
    ∀ cs : List (List Char), (∀ c ∈ cs, st c = Except.ok (f c)) →
      synthLoop sg st "gtts" cs = (Except.ok ((cs.map f).flatten), cs) := by
  intro cs
  induction cs with
  | nil => intro _; rfl
  | cons c rest ih =>
      intro h
      have hc : st c = Except.ok (f c) := h c (List.mem_cons_self c rest)
      have hr := ih fun d hd => h d (List.mem_cons_of_mem c hd)
      simp [synthLoop, hc, hr]

lemma synthLoop_fail_google (sg st : List Char → Except PyError (List Nat))
    (e : PyError) :
    ∀ (pre : List (List Char)) (c : List Char) (post : List (List Char)),
      (∀ d ∈ pre, ∃ b, sg d = Except.ok b) → sg c = Except.error e →
      synthLoop sg st "google" (pre ++ c :: post) = (Except.error e, pre ++ [c]) := by
  intro pre
  induction pre with
  | nil =>
      intro c post _ hc
      simp [synthLoop, hc]
  | cons d pre ih =>
      intro c post hpre hc
      obtain ⟨b, hb⟩ := hpre d (List.mem_cons_self d pre)
      have hr := ih c post (fun x hx => hpre x (List.mem_cons_of_mem d hx)) hc
      simp [synthLoop, hb, hr]

lemma synthLoop_fail_gtts (sg st : List Char → Except PyError (List Nat))
    (e : PyError) :
    ∀ (pre : List (List Char)) (c : List Char) (post : List (List Char)),
      (∀ d ∈ pre, ∃ b, st d = Except.ok b) → st c = Except.error e →
      synthLoop sg st "gtts" (pre ++ c :: post) = (Except.error e, pre ++ [c]) := by
  intro pre
  induction pre with
  | nil =>
      intro c post _ hc
      simp [synthLoop, hc]
  | cons d pre ih =>
      intro c post hpre hc
      obtain ⟨b, hb⟩ := hpre d (List.mem_cons_self d pre)
      have hr := ih c post (fun x hx => hpre x (List.mem_cons_of_mem d hx)) hc
      simp [synthLoop, hb, hr]

/-- Concrete oracle: synthesis always succeeds with the empty fragment. -/
def noSynth : List Char → Except PyError (List Nat) :=
  fun _ => Except.ok []

/-- Concrete oracle: synthesis always fails with a network error. -/
def failSynth : List Char → Except PyError (List Nat) :=
  fun _ => Except.error (PyError.synthError "network failure")

/-- Concrete fragment function: one byte recording the chunk length. -/
def frag (c : List Char) : List Nat := [c.length]

/-- Concrete oracle: synthesis succeeds returning `frag` of the chunk. -/
def okGoogle : List Char → Except PyError (List Nat) :=
  fun c => Except.ok (frag c)

/-! ### Claim theorems: pipeline -/

/-- C2: Order preservation of assembly.  If the selected provider's
synthesizer returns fragment `f c` for every chunk `c` of the text, then
`text_to_mp3` writes exactly the concatenation of the fragments in chunk
order (its `ok` payload, which is what line 89 writes), the synthesis
trace is exactly the chunk list in order, and the output byte length is
the sum of the fragment lengths. -/
theorem assembly_order (sg st : List Char → Except PyError (List Nat))
    (provider : String) (f : List Char → List Nat) (s : List Char)
    (h : (provider = "google" ∧ ∀ c ∈ chunkText MAX_CHARS s, sg c = Except.ok (f c)) ∨
         (provider = "gtts" ∧ ∀ c ∈ chunkText MAX_CHARS s, st c = Except.ok (f c))) :
    text_to_mp3 sg st s provider =
      (Except.ok (((chunkText MAX_CHARS s).map f).flatten), chunkText MAX_CHARS s) ∧
    (((chunkText MAX_CHARS s).map f).flatten).length =
      (((chunkText MAX_CHARS s).map f).map List.length).sum := by
  constructor
  · rcases h with ⟨hp, hok⟩ | ⟨hp, hok⟩
    · subst hp
      exact synthLoop_ok_google sg st f (chunkText MAX_CHARS s) hok
    · subst hp
      exact synthLoop_ok_gtts sg st f (chunkText MAX_CHARS s) hok
  · exact List.length_flatten _

/-- Witness for `assembly_order`: the two-character text `"hi"` forms a
single chunk, the mocked google synthesizer returns `frag`, and the
output is the concatenation of the fragments. -/
theorem assembly_order_witness :
    text_to_mp3 okGoogle noSynth ['h', 'i'] "google" =
      (Except.ok (((chunkText MAX_CHARS ['h', 'i']).map frag).flatten),
        chunkText MAX_CHARS ['h', 'i']) ∧
    (((chunkText MAX_CHARS ['h', 'i']).map frag).flatten).length =
      (((chunkText MAX_CHARS ['h', 'i']).map frag).map List.length).sum :=
  assembly_order okGoogle noSynth "google" frag ['h', 'i']
    (Or.inl ⟨rfl, by
      have hch : chunkText MAX_CHARS ['h', 'i'] = [['h', 'i']] := by decide
      rw [hch]
      intro c hc
      rcases List.mem_singleton.mp hc with rfl
      rfl⟩)

/-- C4: Empty-text failure.  Whenever the normalized extraction result is
empty, `main` terminates through `sys.exit` with the user-visible message
`"No extractable text found in the PDF."` (non-zero process status), and
the synthesis call trace is empty — no chunking-for-synthesis work and no
synthesis call happens, for any provider and any synthesizer behavior. -/
theorem empty_extraction_exits (raw : List Char)
    (sg st : List Char → Except PyError (List Nat)) (provider : String)
    (h : extract_text raw = []) :
    main true raw sg st provider =
      (RunOutcome.exited "No extractable text found in the PDF.", []) := by
  simp [main, h]

/-- Witness for `empty_extraction_exits`: a whitespace-only document
normalizes to the empty string and the run exits before any synthesis. -/
theorem empty_extraction_exits_witness :
    main true [' ', '\n'] noSynth noSynth "google" =
      (RunOutcome.exited "No extractable text found in the PDF.", []) :=
  empty_extraction_exits [' ', '\n'] noSynth noSynth "google" (by decide)

/-- C5: No partial output on synthesis failure.  If the chunk list is
`pre ++ c :: post` and the selected provider synthesizes every chunk of
`pre` successfully but raises `e` on chunk `c`, then `text_to_mp3`
propagates `e` and its synthesis trace is exactly `pre ++ [c]`: every
earlier chunk was sent once, the failing chunk was sent exactly once (no
retry), no later chunk is ever attempted — and because the loop raised,
the `out_path.write_bytes` on line 89 never executes, which at `main`
level shows as `raised e` rather than `wrote`, so nothing is written to
the output path. -/
theorem synth_failure_no_write (sg st : List Char → Except PyError (List Nat))
    (provider : String) (raw s : List Char) (pre : List (List Char))
    (c : List Char) (post : List (List Char)) (e : PyError)
    (hraw : extract_text raw = s)
    (hchunks : chunkText MAX_CHARS s = pre ++ c :: post)
    (hfail :
      (provider = "google" ∧ (∀ d ∈ pre, ∃ b, sg d = Except.ok b) ∧
        sg c = Except.error e) ∨
      (provider = "gtts" ∧ (∀ d ∈ pre, ∃ b, st d = Except.ok b) ∧
        st c = Except.error e)) :
    text_to_mp3 sg st s provider = (Except.error e, pre ++ [c]) ∧
    main true raw sg st provider = (RunOutcome.raised e, pre ++ [c]) := by
  have hmp3 : text_to_mp3 sg st s provider = (Except.error e, pre ++ [c]) := by
    show synthLoop sg st provider (chunkText MAX_CHARS s) = _
    rw [hchunks]
    rcases hfail with ⟨hp, hpre, hc⟩ | ⟨hp, hpre, hc⟩
    · subst hp
      exact synthLoop_fail_google sg st e pre c post hpre hc
    · subst hp
      exact synthLoop_fail_gtts sg st e pre c post hpre hc
  refine ⟨hmp3, ?_⟩
  have hs : s ≠ [] := by
    intro h
    rw [h] at hchunks
    have h0 : ([] : List (List Char)) = pre ++ c :: post := hchunks
    have hlen := congrArg List.length h0
    simp only [List.length_nil, List.length_append, List.length_cons] at hlen
    omega
  simp only [main, hraw, Bool.true_eq_false, if_false]
  rw [if_neg hs, hmp3]

/-- Witness for `synth_failure_no_write`: the text `"hi"` is one chunk,
the google synthesizer fails on it with a network error, the error
propagates and nothing is written. -/
theorem synth_failure_no_write_witness :
    text_to_mp3 failSynth noSynth ['h', 'i'] "google" =
      (Except.error (PyError.synthError "network failure"), [['h', 'i']]) ∧
    main true ['h', 'i'] failSynth noSynth "google" =
      (RunOutcome.raised (PyError.synthError "network failure"), [['h', 'i']]) :=
  synth_failure_no_write failSynth noSynth "google" ['h', 'i'] ['h', 'i']
    [] ['h', 'i'] [] (PyError.synthError "network failure")
    (by decide) (by decide)
    (Or.inl ⟨rfl, fun d hd => absurd hd (List.not_mem_nil d), rfl⟩)

/-- C10: Per-chunk provider check.  The provider name is validated only
inside the per-chunk loop: with an unsupported provider and non-empty
text, `text_to_mp3` raises `ValueError("Unsupported provider")` on the
first chunk with an empty synthesis trace (no synthesizer called) and,
the result being an exception, the write on line 89 never executes; with
empty text the loop body never runs, so no error is raised and the empty
byte string is written to the output file. -/
theorem provider_checked_in_loop (sg st : List Char → Except PyError (List Nat))
    (provider : String) (s : List Char)
    (hg : provider ≠ "google") (ht : provider ≠ "gtts") :
    (s ≠ [] → text_to_mp3 sg st s provider =
      (Except.error (PyError.valueError "Unsupported provider"), [])) ∧
    text_to_mp3 sg st ([] : List Char) provider = (Except.ok [], []) := by
  constructor
  · intro hs
    cases s with
    | nil => exact absurd rfl hs
    | cons c rest =>
        show synthLoop sg st provider (chunkText MAX_CHARS (c :: rest)) = _
        have hch : chunkText MAX_CHARS (c :: rest) =
            (c :: rest.take (MAX_CHARS - 1)) ::
              chunkGo MAX_CHARS rest.length (rest.drop (MAX_CHARS - 1)) := rfl
        rw [hch]
        simp [synthLoop, hg, ht]
  · rfl

/-- Witness for `provider_checked_in_loop` at the unsupported provider
name `"azure"`. -/
theorem provider_checked_in_loop_witness :
    text_to_mp3 noSynth noSynth ['a'] "azure" =
      (Except.error (PyError.valueError "Unsupported provider"), []) ∧
    text_to_mp3 noSynth noSynth ([] : List Char) "azure" = (Except.ok [], []) :=
  ⟨(provider_checked_in_loop noSynth noSynth "azure" ['a'] (by decide) (by decide)).1
      (by decide),
    (provider_checked_in_loop noSynth noSynth "azure" ['a'] (by decide) (by decide)).2⟩

/-- Concrete oracle: decoding the provider output always fails. -/
def failDecode : List Nat → Except PyError (List Nat) :=
  fun _ => Except.error (PyError.synthError "from_mp3 failed")

/-- Concrete oracle: decoding succeeds and returns the bytes unchanged. -/
def okDecode : List Nat → Except PyError (List Nat) :=
  fun b => Except.ok b

/-- Concrete oracle: re-encoding returns the bytes unchanged. -/
def idEncode : List Nat → List Nat :=
  fun b => b

/-- C7: evaluation at the failing input.  When `AudioSegment.from_mp3`
raises while decoding the provider output, `synthesize_gtts` exits with
the temporary file still present (`true` in the second component): the
`unlink` on the next line is never reached, contradicting the claim that
the temporary file is deleted on every exit path.  On the success path
the file is deleted (`false`). -/
theorem gtts_temp_file_leak :
    synthesize_gtts (Except.ok [7]) failDecode idEncode =
      (Except.error (PyError.synthError "from_mp3 failed"), true) ∧
    synthesize_gtts (Except.ok [7]) okDecode idEncode = (Except.ok [7], false) :=
  ⟨rfl, rfl⟩

/-- Concrete oracle: the cloud API always succeeds with an empty body. -/
def okApi : List Char → List Char → List Char → Except PyError (List Nat) :=
  fun _ _ _ => Except.ok []

/-- C8 counterexample: for the malformed voice identifier `"en"` (no
hyphen, hence no region segment), `synthesize_google` fails with the
unclassified `IndexError` from `voice.split("-")[1]`, not with the
specification's `ConfigurationError`. -/
theorem google_malformed_voice_cex :
    synthesize_google okApi ['h', 'i'] ['e', 'n'] = Except.error PyError.indexError ∧
    PyError.indexError ≠ PyError.configurationError := by
  exact ⟨rfl, by decide⟩

/-- C8 (amended): for every voice identifier whose hyphen-split has fewer
than two parts (no region segment), the cloud-variant synthesis fails
with the unclassified `IndexError` raised by the subscript
`voice.split("-")[1]` — the code performs no voice validation and never
raises a configuration-classified error. -/
theorem google_malformed_voice
    (api : List Char → List Char → List Char → Except PyError (List Nat))
    (text voice : List Char) (h : (splitDash voice).length < 2) :
    synthesize_google api text voice = Except.error PyError.indexError := by
  rcases hv : splitDash voice with _ | ⟨p0, _ | ⟨p1, tl⟩⟩
  · simp [synthesize_google, hv]
  · simp [synthesize_google, hv]
  · rw [hv] at h
    simp at h
    omega

/-- Witness for `google_malformed_voice` at the voice `"en"`. -/
theorem google_malformed_voice_witness :
    synthesize_google okApi ['t', 'x'] ['e', 'n'] = Except.error PyError.indexError :=
  google_malformed_voice okApi ['t', 'x'] ['e', 'n'] (by decide)

/-! ### Normalization lemmas

The key invariant behind the idempotence analysis: after the
`\s+\n → \n` pass, no whitespace character is immediately followed by a
newline.  On strings with that property the second and third
substitutions act as the identity, so any failure of idempotence must
come from the hyphen-rejoin pass. -/

/-- No whitespace character of the list is immediately followed by a
newline. -/
def noWsNl : List Char → Bool
  | [] => true
  | c :: t =>
      (match t.head? with
       | some d => !(pyWs c && d == '\n')
       | none => true) && noWsNl t

lemma noWsNl_tail {c : Char} {t : List Char} (h : noWsNl (c :: t) = true) :
    noWsNl t = true := by
  rw [noWsNl, Bool.and_eq_true] at h
  exact h.2

lemma noWsNl_cons_elim {c d : Char} {r : List Char}
    (h : noWsNl (c :: d :: r) = true) (hc : pyWs c = true) :
    d ≠ '\n' ∧ noWsNl (d :: r) = true := by
  rw [noWsNl, Bool.and_eq_true] at h
  obtain ⟨h1, h2⟩ := h
  refine ⟨?_, h2⟩
  intro hd
  subst hd
  simp [hc, List.head?] at h1

lemma noWsNl_cons_intro {c : Char} {t : List Char}
    (h1 : ∀ d r, t = d :: r → pyWs c = true → d ≠ '\n')
    (h2 : noWsNl t = true) : noWsNl (c :: t) = true := by
  rw [noWsNl, Bool.and_eq_true]
  refine ⟨?_, h2⟩
  cases t with
  | nil => rfl
  | cons d r =>
      by_cases hc : pyWs c
      · have hd := h1 d r rfl hc
        simp [List.head?, hc, hd]
      · simp [List.head?, Bool.not_eq_true _ ▸ hc]

lemma hasNl_ws_run : ∀ (rest : List Char) (c : Char),
    noWsNl (c :: rest) = true → pyWs c = true →
    hasNl (rest.takeWhile pyWs) = false := by
  intro rest
  induction rest with
  | nil => intro c _ _; rfl
  | cons d r ih =>
      intro c hno hc
      obtain ⟨hd, h2⟩ := noWsNl_cons_elim hno hc
      by_cases hwd : pyWs d
      · rw [List.takeWhile_cons_of_pos hwd]
        rw [hasNl, ih d h2 hwd]
        simp [hd]
      · rw [List.takeWhile_cons_of_neg hwd]
        rfl

/-- On a string satisfying the invariant, the `\s+\n` pass is the
identity. -/
lemma trim_fix : ∀ (l : List Char), noWsNl l = true →
    trimWsBeforeNewline l = l := by
  intro l
  induction l with
  | nil => intro _; rfl
  | cons c rest ih =>
      intro h
      have htail := noWsNl_tail h
      rw [trimWsBeforeNewline]
      by_cases hc : pyWs c
      · rw [hasNl_ws_run rest c h hc]
        simp [ih htail]
      · simp [Bool.not_eq_true _ ▸ hc, ih htail]

/-- If the `\s+\n` pass produces a string starting with a newline, the
input began with a whitespace run containing a newline. -/
lemma trim_head_nl : ∀ (l r : List Char),
    trimWsBeforeNewline l = '\n' :: r → hasNl (l.takeWhile pyWs) = true := by
  intro l
  induction l with
  | nil =>
      intro r h
      exact absurd h (by rw [trimWsBeforeNewline]; exact List.noConfusion)
  | cons c rest ih =>
      intro r h
      rw [trimWsBeforeNewline] at h
      by_cases hcond : pyWs c && hasNl (rest.takeWhile pyWs)
      · rw [if_pos hcond] at h
        have hws : pyWs c = true := by
          have hco := hcond
          simp only [Bool.and_eq_true] at hco
          exact hco.1
        rw [List.takeWhile_cons_of_pos hws, hasNl, ih r h]
        simp
      · rw [if_neg hcond] at h
        have hc : c = '\n' := (List.cons_eq_cons.mp h).1
        subst hc
        rw [List.takeWhile_cons_of_pos (show pyWs '\n' = true from rfl), hasNl]
        simp

/-- The output of the `\s+\n` pass satisfies the invariant. -/
lemma noWsNl_trim : ∀ (l : List Char), noWsNl (trimWsBeforeNewline l) = true := by
  intro l
  induction l with
  | nil => rfl
  | cons c rest ih =>
      rw [trimWsBeforeNewline]
      by_cases hcond : pyWs c && hasNl (rest.takeWhile pyWs)
      · rw [if_pos hcond]
        exact ih
      · rw [if_neg hcond]
        refine noWsNl_cons_intro ?_ ih
        intro d r hdr hc hd
        subst hd
        exact hcond (by rw [hc, trim_head_nl rest r hdr]; rfl)

/-- On a string satisfying the invariant (so containing no two adjacent
newlines), the blank-line-collapse pass is the identity, for any starting
count below 2. -/
lemma collapseGo_fix : ∀ (l : List Char), noWsNl l = true →
    ∀ k : Nat, (∀ r, l = '\n' :: r → k < 2) → collapseGo k l = l := by
  intro l
  induction l with
  | nil => intro _ k _; rfl
  | cons c rest ih =>
      intro h k hk
      have htail := noWsNl_tail h
      rw [collapseGo]
      by_cases hc : c = '\n'
      · subst hc
        have hklt : k < 2 := hk rest rfl
        rw [if_pos rfl, if_neg (by omega)]
        congr 1
        refine ih htail (k + 1) ?_
        intro r hr
        exfalso
        subst hr
        obtain ⟨hd, _⟩ := noWsNl_cons_elim h (show pyWs '\n' = true from rfl)
        exact hd rfl
      · rw [if_neg hc]
        congr 1
        exact ih htail 0 fun r hr => by omega

lemma collapse_fix (l : List Char) (h : noWsNl l = true) :
    collapseBlankLines l = l :=
  collapseGo_fix l h 0 fun _ _ => by omega

lemma noWsNl_dropWhile (p : Char → Bool) : ∀ (l : List Char),
    noWsNl l = true → noWsNl (l.dropWhile p) = true := by
  intro l
  induction l with
  | nil => intro _; rfl
  | cons c rest ih =>
      intro h
      rw [List.dropWhile_cons]
      by_cases hc : p c = true
      · rw [if_pos hc]
        exact ih (noWsNl_tail h)
      · rw [if_neg hc]
        exact h

lemma noWsNl_take : ∀ (l : List Char) (n : Nat),
    noWsNl l = true → noWsNl (l.take n) = true := by
  intro l
  induction l with
  | nil => intro n _; simp [noWsNl]
  | cons c rest ih =>
      intro n h
      cases n with
      | zero => rfl
      | succ n =>
          rw [List.take_succ_cons]
          refine noWsNl_cons_intro ?_ (ih n (noWsNl_tail h))
          intro d r hdr hc
          cases rest with
          | nil => simp at hdr
          | cons d0 r0 =>
              cases n with
              | zero => simp at hdr
              | succ n2 =>
                  rw [List.take_succ_cons] at hdr
                  obtain ⟨hd0, _⟩ := List.cons_eq_cons.mp hdr
                  subst hd0
                  exact (noWsNl_cons_elim h hc).1

lemma rstrip_cons_of_ne_nil (c : Char) (rest : List Char)
    (h : rstripWs rest ≠ []) : rstripWs (c :: rest) = c :: rstripWs rest := by
  cases hr : rstripWs rest with
  | nil => exact absurd hr h
  | cons x xs => simp only [rstripWs, hr]

lemma rstrip_cons_of_nil (c : Char) (rest : List Char)
    (h : rstripWs rest = []) :
    rstripWs (c :: rest) = if pyWs c = true then [] else [c] := by
  simp only [rstripWs, h]

lemma rstrip_eq_take : ∀ l : List Char, ∃ n, rstripWs l = l.take n := by
  intro l
  induction l with
  | nil => exact ⟨0, rfl⟩
  | cons c rest ih =>
      obtain ⟨n, hn⟩ := ih
      cases hr : rstripWs rest with
      | nil =>
          by_cases hc : pyWs c = true
          · refine ⟨0, ?_⟩
            rw [rstrip_cons_of_nil c rest hr, if_pos hc]
            rfl
          · refine ⟨1, ?_⟩
            rw [rstrip_cons_of_nil c rest hr, if_neg hc]
            rfl
      | cons x xs =>
          refine ⟨n + 1, ?_⟩
          rw [rstrip_cons_of_ne_nil c rest (by rw [hr]; exact List.cons_ne_nil x xs),
            List.take_succ_cons, ← hn]

lemma noWsNl_rstrip (l : List Char) (h : noWsNl l = true) :
    noWsNl (rstripWs l) = true := by
  obtain ⟨n, hn⟩ := rstrip_eq_take l
  rw [hn]
  exact noWsNl_take l n h

lemma rstrip_idem : ∀ l : List Char, rstripWs (rstripWs l) = rstripWs l := by
  intro l
  induction l with
  | nil => rfl
  | cons c rest ih =>
      cases hr : rstripWs rest with
      | nil =>
          rw [rstrip_cons_of_nil c rest hr]
          by_cases hc : pyWs c = true
          · rw [if_pos hc]
            rfl
          · rw [if_neg hc]
            rw [rstrip_cons_of_nil c [] rfl, if_neg hc]
      | cons x xs =>
          have hne : rstripWs rest ≠ [] := by
            rw [hr]
            exact List.cons_ne_nil x xs
          have hxs : rstripWs (x :: xs) = x :: xs := by
            rw [← hr]
            exact ih
          rw [rstrip_cons_of_ne_nil c rest hne, hr,
            rstrip_cons_of_ne_nil c (x :: xs) (by rw [hxs]; exact List.cons_ne_nil x xs),
            hxs]

lemma dropWhile_take_fix (p : Char → Bool) :
    ∀ (l : List Char) (n : Nat), l.dropWhile p = l →
      (l.take n).dropWhile p = l.take n := by
  intro l n h
  cases l with
  | nil => simp
  | cons c rest =>
      have hc : p c = false := by
        by_contra hpc
        rw [Bool.not_eq_false] at hpc
        rw [List.dropWhile_cons, if_pos hpc] at h
        have hlen := (List.dropWhile_sublist (l := rest) p).length_le
        rw [h] at hlen
        simp only [List.length_cons] at hlen
        omega
      cases n with
      | zero => simp
      | succ n =>
          rw [List.take_succ_cons, List.dropWhile_cons, if_neg (by simp [hc])]

lemma dropWhile_rstrip_fix (p : Char → Bool) (l : List Char)
    (h : l.dropWhile p = l) : (rstripWs l).dropWhile p = rstripWs l := by
  obtain ⟨n, hn⟩ := rstrip_eq_take l
  rw [hn]
  exact dropWhile_take_fix p l n h

lemma pyStrip_idem (l : List Char) : pyStrip (pyStrip l) = pyStrip l := by
  rw [pyStrip, pyStrip]
  rw [dropWhile_rstrip_fix pyWs (l.dropWhile pyWs) (List.dropWhile_idempotent pyWs l)]
  exact rstrip_idem _

lemma mem_trim : ∀ (l : List Char) (x : Char),
    x ∈ trimWsBeforeNewline l → x ∈ l := by
  intro l
  induction l with
  | nil => intro x h; exact absurd h (List.not_mem_nil x)
  | cons c rest ih =>
      intro x h
      rw [trimWsBeforeNewline] at h
      by_cases hcond : pyWs c && hasNl (rest.takeWhile pyWs)
      · rw [if_pos hcond] at h
        exact List.mem_cons_of_mem c (ih x h)
      · rw [if_neg hcond] at h
        rcases List.mem_cons.mp h with h | h
        · exact h ▸ List.mem_cons_self c rest
        · exact List.mem_cons_of_mem c (ih x h)

lemma mem_collapseGo : ∀ (l : List Char) (k : Nat) (x : Char),
    x ∈ collapseGo k l → x ∈ l := by
  intro l
  induction l with
  | nil => intro k x h; exact absurd h (List.not_mem_nil x)
  | cons c rest ih =>
      intro k x h
      rw [collapseGo] at h
      by_cases hc : c = '\n'
      · subst hc
        by_cases hk : 2 ≤ k
        · rw [if_pos rfl, if_pos hk] at h
          exact List.mem_cons_of_mem _ (ih k x h)
        · rw [if_pos rfl, if_neg hk] at h
          rcases List.mem_cons.mp h with h | h
          · exact h ▸ List.mem_cons_self _ _
          · exact List.mem_cons_of_mem _ (ih _ x h)
      · rw [if_neg hc] at h
        rcases List.mem_cons.mp h with h | h
        · exact h ▸ List.mem_cons_self _ _
        · exact List.mem_cons_of_mem _ (ih _ x h)

lemma mem_joinHyphenGo : ∀ (fuel : Nat) (l : List Char) (x : Char),
    x ∈ joinHyphenGo fuel l → x ∈ l := by
  intro fuel
  induction fuel with
  | zero =>
      intro l x h
      cases l with
      | nil => exact h
      | cons a t => exact h
  | succ fuel ih =>
      intro l x h
      rcases l with _ | ⟨a, _ | ⟨b, _ | ⟨c, rest⟩⟩⟩
      · exact h
      · exact h
      · exact h
      · simp only [joinHyphenGo] at h
        split at h
        · rcases List.mem_cons.mp h with rfl | h
          · exact List.mem_cons_of_mem a (List.mem_cons_of_mem b
              (List.mem_cons_self _ rest))
          · exact List.mem_cons_of_mem a (List.mem_cons_of_mem b
              (List.mem_cons_of_mem c (ih rest x h)))
        · rcases List.mem_cons.mp h with rfl | h
          · exact List.mem_cons_self _ _
          · exact List.mem_cons_of_mem a (ih _ x h)

lemma joinHyphenGo_fix : ∀ (fuel : Nat) (l : List Char),
    ¬ '-' ∈ l → joinHyphenGo fuel l = l := by
  intro fuel
  induction fuel with
  | zero =>
      intro l _
      cases l <;> rfl
  | succ fuel ih =>
      intro l h
      rcases l with _ | ⟨a, _ | ⟨b, _ | ⟨c, rest⟩⟩⟩
      · rfl
      · rfl
      · rfl
      · have ha : a ≠ '-' := fun he => h (he ▸ List.mem_cons_self a _)
        simp only [joinHyphenGo]
        rw [if_neg fun hand => ha hand.1]
        congr 1
        exact ih _ fun he => h (List.mem_cons_of_mem a he)

lemma joinHyphen_fix (l : List Char) (h : ¬ '-' ∈ l) :
    joinHyphenBreaks l = l :=
  joinHyphenGo_fix l.length l h

lemma mem_joinHyphen (l : List Char) (x : Char)
    (h : x ∈ joinHyphenBreaks l) : x ∈ l :=
  mem_joinHyphenGo l.length l x h

/-! ### Claim theorems: normalization idempotence -/

/-- C6 counterexample: the extractor's normalization pass is not
idempotent.  On `"a- \nb"` the hyphen pass does not fire (the hyphen is
followed by a space, not a newline), but the whitespace pass deletes that
space, yielding `"a-\nb"`; a second application now rejoins the hyphen
and yields `"ab"`. -/
theorem extract_text_not_idem_cex :
    extract_text ['a', '-', ' ', '\n', 'b'] = ['a', '-', '\n', 'b'] ∧
    extract_text ['a', '-', '\n', 'b'] = ['a', 'b'] ∧
    extract_text (extract_text ['a', '-', ' ', '\n', 'b']) ≠
      extract_text ['a', '-', ' ', '\n', 'b'] := by
  decide

/-- C6 (amended): the normalization pass is idempotent on every input
containing no hyphen (where the first substitution cannot fire); in
general it is not idempotent, because trimming whitespace can create a
new hyphen-newline junction that the rejoin pass collapses only on the
second application (see the counterexample). -/
theorem extract_text_idem_of_no_hyphen (s : List Char) (h : '-' ∉ s) :
    extract_text (extract_text s) = extract_text s := by
  have hjoin : joinHyphenBreaks s = s := joinHyphen_fix s h
  have hnoA : noWsNl (trimWsBeforeNewline s) = true := noWsNl_trim s
  have hcA : collapseBlankLines (trimWsBeforeNewline s) =
      trimWsBeforeNewline s := collapse_fix _ hnoA
  have h1 : extract_text s = pyStrip (trimWsBeforeNewline s) := by
    rw [extract_text, hjoin, hcA]
  set A := trimWsBeforeNewline s with hA
  set t := pyStrip A with ht
  have hnoT : noWsNl t = true := by
    rw [ht, pyStrip]
    exact noWsNl_rstrip _ (noWsNl_dropWhile pyWs A hnoA)
  have hmemT : '-' ∉ t := by
    intro hx
    apply h
    have h2 : '-' ∈ A.dropWhile pyWs := by
      obtain ⟨n, hn⟩ := rstrip_eq_take (A.dropWhile pyWs)
      rw [ht, pyStrip, hn] at hx
      exact List.take_subset n _ hx
    exact mem_trim s '-' ((List.dropWhile_sublist pyWs).subset h2)
  have hdropT : pyStrip t = t := by
    rw [ht]
    exact pyStrip_idem A
  rw [h1]
  rw [extract_text, joinHyphen_fix t hmemT, trim_fix t hnoT,
    collapse_fix t hnoT, hdropT]

/-- Witness for `extract_text_idem_of_no_hyphen` on a hyphen-free string
with internal whitespace. -/
theorem extract_text_idem_of_no_hyphen_witness :
    extract_text (extract_text ['a', ' ', '\n', 'b']) =
      extract_text ['a', ' ', '\n', 'b'] :=
  extract_text_idem_of_no_hyphen ['a', ' ', '\n', 'b'] (by decide)

end PdfToSpeech
